import Mathlib

/-!
Verification of the `census` live-object registry (`src/src/lib.rs`).

The registry is embedded as a sequential state machine.  Every `Arc<Inner<T>>`
allocation is modelled as an index (an *id*) into an append-only arena
`heap : List (Inner T)`; a `TrackedObject<T>` handle is modelled by the id of
the slot it wraps; the `Stash<T>` fields `items` / `release_queue` become the
`items` / `queue` fields of the state.  All executions considered are
interleavings at operation granularity, which is the level at which the
specification's functional claims speak.
-/

set_option maxHeartbeats 1000000

namespace Census

/-- The slot record `Inner<T>` (lib.rs 303-307): the tracked value, the
`AtomicUsize` reference count and the `AtomicUsize` position index.  Counts on
the states considered stay far below `usize::MAX`, where `Nat` arithmetic and
the machine's wrapping arithmetic agree. -/
structure Inner (T : Type) where
  val : T
  count : Nat
  idx : Nat
deriving Repr, DecidableEq

/-- The registry state.  `heap` is the arena of every `Inner<T>` allocated so
far (ids are never reused, mirroring distinct `Arc` allocations); `items`
models `Stash::items : Vec<Arc<Inner<T>>>` as the list of slot ids; `queue`
models the pending contents of the mpsc `release_queue` (lib.rs 32-35);
`notif` counts `Condvar::notify_all` calls so that wake-ups are observable. -/
structure Stash (T : Type) where
  heap : List (Inner T)
  items : List Nat
  queue : List Nat
  notif : Nat
deriving Repr, DecidableEq

variable {T : Type}

/-- `Inventory::new` / `Inventory::default` (lib.rs 142-154, 167-169). -/
def inventoryNew : Stash T :=
  { heap := [], items := [], queue := [], notif := 0 }

/-- Reference count stored in slot `i` (`Inner::count`); `0` for an id that
was never allocated. -/
def countOf (s : Stash T) (i : Nat) : Nat :=
  match s.heap.get? i with
  | some inn => inn.count
  | none => 0

/-- Position index stored in slot `i` (`Inner::index`, lib.rs 341-343). -/
def idxOf (s : Stash T) (i : Nat) : Nat :=
  match s.heap.get? i with
  | some inn => inn.idx
  | none => 0

/-- The value stored in slot `i`. -/
def valOf (s : Stash T) (i : Nat) : Option T :=
  (s.heap.get? i).map Inner.val

/-- Mutate slot `i` in place through the shared `Arc<Inner<T>>`. -/
def updInner (s : Stash T) (i : Nat) (f : Inner T → Inner T) : Stash T :=
  match s.heap.get? i with
  | some inn => { s with heap := s.heap.set i (f inn) }
  | none => s

/-- `make_tracked_object` (lib.rs 309-318): `fetch_add(1)` on the slot's
count, then refuse (`None`) when the pre-increment count was `0` and `force`
is off.  The increment persists even in the `None` case, exactly as in the
source. -/
def make_tracked_object (s : Stash T) (el : Nat) (force : Bool) :
    Stash T × Option Nat :=
  let c := countOf s el
  let s1 := updInner s el (fun inn => { inn with count := inn.count + 1 })
  if c = 0 ∧ force = false then (s1, none) else (s1, some el)

/-- `InnerInventory::remove_with_lock` (lib.rs 76-89): read the slot's stored
index `pos`; pop when `pos` is the last position, otherwise `swap_remove(pos)`
and store `pos` into the moved (previously last) slot's index.  A `pos` out of
bounds is a panic in Rust and is unreachable from the states considered
below. -/
def remove_with_lock (s : Stash T) (el : Nat) : Stash T :=
  let pos := idxOf s el
  if pos + 1 = s.items.length then
    { s with items := s.items.dropLast }
  else
    let lastId := s.items.getLastD 0
    let s2 := { s with items := (s.items.set pos lastId).dropLast }
    updInner s2 lastId (fun inn => { inn with idx := pos })

/-- The `while let Ok(el) = release_queue_recv.try_recv()` drain loop of
`InnerInventory::purge` (lib.rs 65-74). -/
def drainQueue : Stash T → List Nat → Stash T
  | s, [] => s
  | s, el :: rest => drainQueue (remove_with_lock s el) rest

/-- `InnerInventory::purge` (lib.rs 65-74): drain the release queue, removing
each drained slot, and `notify_all` when anything was removed. -/
def purge (s : Stash T) : Stash T :=
  let drained := drainQueue { s with queue := [] } s.queue
  if s.queue.isEmpty then drained else { drained with notif := drained.notif + 1 }

/-- `Inventory::track` (lib.rs 264-282): under the lock, purge, read the item
count as the new slot's index, allocate the slot with count `0`, wrap it with
`make_tracked_object(_, _, force = true)` (whose `fetch_add` brings the count
to `1`), push it, `notify_all`, and return the handle. -/
def track (s : Stash T) (v : T) : Stash T × Nat :=
  let s1 := purge s
  let idx := s1.items.length
  let id := s1.heap.length
  let s2 : Stash T := { s1 with heap := s1.heap ++ [⟨v, 0, idx⟩] }
  let p := make_tracked_object s2 id true
  let s3 : Stash T := { p.1 with items := p.1.items ++ [id] }
  ({ s3 with notif := s3.notif + 1 }, p.2.getD id)

/-- `Drop for TrackedObject` (lib.rs 285-295) together with
`Inventory::try_purge` (lib.rs 172-186): `fetch_sub(1)`; when the
pre-decrement count was `≤ 1`, send the slot on the release queue and purge.
Sequentially `try_lock` always succeeds, so `try_purge` always purges here;
the claim about a contended or poisoned lock is treated separately. -/
def dropTracked (s : Stash T) (h : Nat) : Stash T :=
  let cb := countOf s h
  let s1 := updInner s h (fun inn => { inn with count := inn.count - 1 })
  if cb ≤ 1 then purge { s1 with queue := s1.queue ++ [h] } else s1

/-- The `flat_map` loop of `Stash::items_copy` (lib.rs 40-46): wrap each item
with `make_tracked_object(_, _, force = false)`, keeping the `Some` results in
order. -/
def listLoop : Stash T → List Nat → Stash T × List Nat
  | s, [] => (s, [])
  | s, el :: rest =>
    let p := make_tracked_object s el false
    let q := listLoop p.1 rest
    (q.1, p.2.toList ++ q.2)

/-- `Stash::items_copy` (lib.rs 38-47): purge, then wrap every remaining item.
The iteration runs over the items list as it stands after the purge. -/
def items_copy (s : Stash T) : Stash T × List Nat :=
  let s1 := purge s
  listLoop s1 s1.items

/-- `Inventory::list` (lib.rs 241-244): lock and `items_copy`.  The returned
ids are the snapshot's handles. -/
def list (s : Stash T) : Stash T × List Nat :=
  items_copy s

/-- Dropping a snapshot `Vec<TrackedObject<T>>`: its elements are dropped in
order. -/
def dropAll : Stash T → List Nat → Stash T
  | s, [] => s
  | s, h :: rest => dropAll (dropTracked s h) rest

/-- `Clone for TrackedObject` (lib.rs 297-301):
`make_tracked_object(_, _, false).unwrap()`.  A `none` result models the
`unwrap` panic. -/
def cloneTracked (s : Stash T) (h : Nat) : Stash T × Option Nat :=
  make_tracked_object s h false

/-- `TrackedObject::map` (lib.rs 369-375): apply `f` to the wrapped value
(outside the lock), then `track` the result.  The `none` branch is
unreachable for a live handle, whose slot id is always allocated. -/
def mapTracked (s : Stash T) (h : Nat) (f : T → T) : Stash T × Nat :=
  match valOf s h with
  | some v => track s (f v)
  | none => (s, 0)

/-- The items list is positionally coherent from position `k` on: each listed
slot's stored index equals its position. -/
def idxOkFrom (s : Stash T) : List Nat → Nat → Bool
  | [], _ => true
  | i :: rest, k => (idxOf s i == k) && idxOkFrom s rest (k + 1)

/-- Well-formedness of a registry state `s` against the multiset `H` of
handle ids currently held outside the registry (callers' handles and the
elements of every live snapshot alike).  These are the facts that hold at
every operation boundary of a sequential execution: the release queue is
drained, items are pairwise distinct allocated slots, every outstanding
handle wraps a present slot, each slot's count equals the number of
outstanding handles wrapping it, every present slot has at least one handle,
and stored indices match positions. -/
def Wf (s : Stash T) (H : List Nat) : Prop :=
  s.queue = [] ∧
  s.items.Nodup ∧
  (∀ i ∈ s.items, i < s.heap.length) ∧
  (∀ i ∈ H, i ∈ s.items) ∧
  (∀ i ∈ s.items, countOf s i = H.count i) ∧
  (∀ i ∈ s.items, 1 ≤ H.count i) ∧
  idxOkFrom s s.items 0 = true

instance (s : Stash T) (H : List Nat) [DecidableEq T] : Decidable (Wf s H) := by
  unfold Wf
  infer_instance

/-! ### Basic facts about the state and slot mutation -/

theorem Stash.ext (s1 s2 : Stash T) (hh : s1.heap = s2.heap)
    (hi : s1.items = s2.items) (hq : s1.queue = s2.queue)
    (hn : s1.notif = s2.notif) : s1 = s2 := by
  cases s1; cases s2; simp_all

theorem countOf_eq_of_get? (s : Stash T) (i : Nat) (inn : Inner T)
    (h : s.heap.get? i = some inn) : countOf s i = inn.count := by
  unfold countOf; rw [h]

theorem idxOf_eq_of_get? (s : Stash T) (i : Nat) (inn : Inner T)
    (h : s.heap.get? i = some inn) : idxOf s i = inn.idx := by
  unfold idxOf; rw [h]

theorem countOf_pos_get? (s : Stash T) (i : Nat) (h : 1 ≤ countOf s i) :
    ∃ inn, s.heap.get? i = some inn := by
  cases hg : s.heap.get? i with
  | none => unfold countOf at h; rw [hg] at h; simp at h
  | some inn => exact ⟨inn, rfl⟩

theorem updInner_items (s : Stash T) (i : Nat) (f : Inner T → Inner T) :
    (updInner s i f).items = s.items := by
  unfold updInner; cases s.heap.get? i <;> rfl

theorem updInner_queue (s : Stash T) (i : Nat) (f : Inner T → Inner T) :
    (updInner s i f).queue = s.queue := by
  unfold updInner; cases s.heap.get? i <;> rfl

theorem updInner_notif (s : Stash T) (i : Nat) (f : Inner T → Inner T) :
    (updInner s i f).notif = s.notif := by
  unfold updInner; cases s.heap.get? i <;> rfl

theorem updInner_heap_length (s : Stash T) (i : Nat) (f : Inner T → Inner T) :
    (updInner s i f).heap.length = s.heap.length := by
  unfold updInner; cases s.heap.get? i <;> simp

theorem updInner_get?_self (s : Stash T) (i : Nat) (f : Inner T → Inner T)
    (inn : Inner T) (h : s.heap.get? i = some inn) :
    (updInner s i f).heap.get? i = some (f inn) := by
  unfold updInner
  rw [h]
  simp only []
  rw [List.get?_eq_getElem?] at h ⊢
  simp [List.getElem?_set_self', h]

theorem updInner_get?_ne (s : Stash T) (i j : Nat) (f : Inner T → Inner T)
    (hne : i ≠ j) : (updInner s i f).heap.get? j = s.heap.get? j := by
  unfold updInner
  cases hg : s.heap.get? i with
  | none => rfl
  | some inn =>
    simp only []
    rw [List.get?_eq_getElem?, List.get?_eq_getElem?]
    exact List.getElem?_set_ne hne

theorem purge_of_queue_nil (s : Stash T) (h : s.queue = []) : purge s = s := by
  cases s with
  | mk heap items queue notif =>
    simp only [] at h
    subst h
    rfl

/-! ### Positional coherence of the items list -/

theorem idxOkFrom_append (s : Stash T) (l1 l2 : List Nat) (k : Nat) :
    idxOkFrom s (l1 ++ l2) k =
      (idxOkFrom s l1 k && idxOkFrom s l2 (k + l1.length)) := by
  induction l1 generalizing k with
  | nil => simp [idxOkFrom]
  | cons a rest ih =>
    simp [idxOkFrom, ih (k + 1), Bool.and_assoc]
    have : k + 1 + rest.length = k + (rest.length + 1) := by omega
    rw [this]

theorem idxOkFrom_congr (s1 s2 : Stash T) (l : List Nat) (k : Nat)
    (h : ∀ i ∈ l, idxOf s1 i = idxOf s2 i) :
    idxOkFrom s1 l k = idxOkFrom s2 l k := by
  induction l generalizing k with
  | nil => rfl
  | cons a rest ih =>
    simp only [idxOkFrom]
    rw [h a (by simp), ih (k + 1) (fun i hi => h i (by simp [hi]))]

theorem idxOk_extract (s : Stash T) (A B : List Nat) (i : Nat)
    (hok : idxOkFrom s (A ++ i :: B) 0 = true) :
    idxOf s i = A.length ∧ idxOkFrom s A 0 = true ∧
      idxOkFrom s B (A.length + 1) = true := by
  rw [idxOkFrom_append] at hok
  simp only [idxOkFrom, Bool.and_eq_true, beq_iff_eq] at hok
  exact ⟨by simpa using hok.2.1, hok.1, by simpa using hok.2.2⟩

/-! ### The two shapes of `remove_with_lock` -/

theorem remove_with_lock_last (s : Stash T) (el : Nat) (A : List Nat)
    (hitems : s.items = A ++ [el]) (hidx : idxOf s el = A.length) :
    remove_with_lock s el = { s with items := A } := by
  unfold remove_with_lock
  rw [hidx, hitems]
  simp [List.dropLast_concat]

theorem remove_with_lock_swap (s : Stash T) (el L : Nat) (A B : List Nat)
    (hitems : s.items = A ++ el :: (B ++ [L]))
    (hidx : idxOf s el = A.length) :
    remove_with_lock s el =
      updInner { s with items := A ++ L :: B } L
        (fun inn => { inn with idx := A.length }) := by
  unfold remove_with_lock
  rw [hidx, hitems]
  have hlen : (A ++ el :: (B ++ [L])).length = A.length + B.length + 2 := by
    simp; omega
  have hne : ¬ (A.length + 1 = (A ++ el :: (B ++ [L])).length) := by
    rw [hlen]; omega
  simp only [hne, if_false]
  have hlast : (A ++ el :: (B ++ [L])).getLastD 0 = L := by
    have : A ++ el :: (B ++ [L]) = (A ++ el :: B) ++ [L] := by simp
    rw [this, List.getLastD_concat]
  have hset : (A ++ el :: (B ++ [L])).set A.length L = A ++ L :: (B ++ [L]) := by
    rw [List.set_append]
    simp
  have hdrop : (A ++ L :: (B ++ [L])).dropLast = A ++ L :: B := by
    have : A ++ L :: (B ++ [L]) = (A ++ L :: B) ++ [L] := by simp
    rw [this, List.dropLast_concat]
  rw [hlast, hset, hdrop]

/-! ### Duplicate-freeness bookkeeping -/

theorem nodup_decomp (A B : List Nat) (h L : Nat)
    (hnd : (A ++ h :: (B ++ [L])).Nodup) :
    (A ++ L :: B).Nodup ∧ h ∉ A ∧ h ∉ B ∧ h ≠ L ∧ L ∉ A ∧ L ∉ B := by
  simp only [List.nodup_append, List.nodup_cons, List.mem_append,
    List.mem_cons, List.mem_singleton, List.disjoint_cons_right,
    List.disjoint_append_right, List.nodup_singleton] at hnd ⊢
  simp only [List.Disjoint] at hnd ⊢
  refine ⟨⟨hnd.1, ?_, ?_⟩, ?_, ?_, ?_, ?_, ?_⟩ <;> try tauto

theorem nodup_snoc (A : List Nat) (h : Nat)
    (hnd : (A ++ [h]).Nodup) : A.Nodup ∧ h ∉ A := by
  simp only [List.nodup_append, List.nodup_singleton, List.Disjoint,
    List.mem_singleton] at hnd
  exact ⟨hnd.1, fun hm => hnd.2.2 hm rfl⟩

theorem nodup_snoc_intro (A : List Nat) (h : Nat)
    (hA : A.Nodup) (hm : h ∉ A) : (A ++ [h]).Nodup := by
  refine List.Nodup.perm ?_ (List.perm_append_singleton h A).symm
  exact List.nodup_cons.mpr ⟨hm, hA⟩

/-! ### `make_tracked_object` and the snapshot loop -/

theorem countOf_congr_get? (s1 s2 : Stash T) (i : Nat)
    (h : s1.heap.get? i = s2.heap.get? i) : countOf s1 i = countOf s2 i := by
  unfold countOf; rw [h]

theorem idxOf_congr_get? (s1 s2 : Stash T) (i : Nat)
    (h : s1.heap.get? i = s2.heap.get? i) : idxOf s1 i = idxOf s2 i := by
  unfold idxOf; rw [h]

theorem make_tracked_object_pos (s : Stash T) (el : Nat) (force : Bool)
    (h : 1 ≤ countOf s el) :
    make_tracked_object s el force =
      (updInner s el (fun inn => { inn with count := inn.count + 1 }),
        some el) := by
  unfold make_tracked_object
  have hne : ¬ (countOf s el = 0 ∧ force = false) := fun hc => by omega
  simp [hne]

theorem make_tracked_object_force (s : Stash T) (el : Nat) :
    make_tracked_object s el true =
      (updInner s el (fun inn => { inn with count := inn.count + 1 }),
        some el) := by
  unfold make_tracked_object
  simp

theorem make_tracked_object_dead (s : Stash T) (el : Nat)
    (h : countOf s el = 0) :
    (make_tracked_object s el false).2 = none := by
  unfold make_tracked_object
  simp [h]

theorem listLoop_spec (l : List Nat) : ∀ s : Stash T,
    (∀ i ∈ l, 1 ≤ countOf s i) → l.Nodup →
    (listLoop s l).2 = l ∧
    (listLoop s l).1.items = s.items ∧
    (listLoop s l).1.queue = s.queue ∧
    (listLoop s l).1.notif = s.notif ∧
    (listLoop s l).1.heap.length = s.heap.length ∧
    (∀ j, j ∉ l → (listLoop s l).1.heap.get? j = s.heap.get? j) ∧
    (∀ j ∈ l, ∀ inn, s.heap.get? j = some inn →
      (listLoop s l).1.heap.get? j = some { inn with count := inn.count + 1 }) := by
  induction l with
  | nil => intro s _ _; simp [listLoop]
  | cons a rest ih =>
    intro s hc hnd
    have ha : 1 ≤ countOf s a := hc a (by simp)
    obtain ⟨inn, hg⟩ := countOf_pos_get? s a ha
    have hmk := make_tracked_object_pos s a false ha
    have hnd2 : rest.Nodup := (List.nodup_cons.mp hnd).2
    have hna : a ∉ rest := (List.nodup_cons.mp hnd).1
    set s1 := updInner s a (fun inn => { inn with count := inn.count + 1 }) with hs1
    have hc1 : ∀ i ∈ rest, 1 ≤ countOf s1 i := by
      intro i hi
      have : s1.heap.get? i = s.heap.get? i :=
        updInner_get?_ne s a i _ (fun he => hna (he ▸ hi))
      rw [countOf_congr_get? s1 s i this]
      exact hc i (by simp [hi])
    obtain ⟨h2snap, h2items, h2queue, h2notif, h2len, h2out, h2in⟩ := ih s1 hc1 hnd2
    have hloop : listLoop s (a :: rest) =
        ((listLoop s1 rest).1, a :: (listLoop s1 rest).2) := by
      show (let p := make_tracked_object s a false
            let q := listLoop p.1 rest
            (q.1, p.2.toList ++ q.2)) = _
      rw [hmk]
      simp
    rw [hloop]
    refine ⟨by simp [h2snap], ?_, ?_, ?_, ?_, ?_, ?_⟩
    · rw [h2items, hs1, updInner_items]
    · rw [h2queue, hs1, updInner_queue]
    · rw [h2notif, hs1, updInner_notif]
    · rw [h2len, hs1, updInner_heap_length]
    · intro j hj
      have hja : j ≠ a := fun he => hj (by simp [he])
      have hjr : j ∉ rest := fun hm => hj (by simp [hm])
      rw [h2out j hjr]
      exact updInner_get?_ne s a j _ (fun he => hja he.symm)
    · intro j hj inn2 hg2
      rcases List.mem_cons.mp hj with he | hm
      · subst he
        have hinn : inn2 = inn := by rw [hg] at hg2; exact (Option.some.inj hg2).symm
        subst hinn
        have hs1g : s1.heap.get? j = some { inn2 with count := inn2.count + 1 } :=
          updInner_get?_self s j _ inn2 hg2
        rw [h2out j hna, hs1g]
      · have hja : a ≠ j := fun he => hna (he ▸ hm)
        have : s1.heap.get? j = s.heap.get? j := updInner_get?_ne s a j _ hja
        refine h2in j hm inn2 ?_
        rw [this, hg2]

/-! ### Dropping a snapshot whose slots all retain another reference -/

theorem dropTracked_high (s : Stash T) (h : Nat) (hc : 2 ≤ countOf s h) :
    dropTracked s h =
      updInner s h (fun inn => { inn with count := inn.count - 1 }) := by
  unfold dropTracked
  have : ¬ (countOf s h ≤ 1) := by omega
  simp [this]

theorem dropAll_spec (l : List Nat) : ∀ s : Stash T,
    (∀ i ∈ l, 2 ≤ countOf s i) → l.Nodup →
    (dropAll s l).items = s.items ∧
    (dropAll s l).queue = s.queue ∧
    (dropAll s l).notif = s.notif ∧
    (∀ j, j ∉ l → (dropAll s l).heap.get? j = s.heap.get? j) ∧
    (∀ j ∈ l, ∀ inn, s.heap.get? j = some inn →
      (dropAll s l).heap.get? j = some { inn with count := inn.count - 1 }) := by
  induction l with
  | nil => intro s _ _; simp [dropAll]
  | cons a rest ih =>
    intro s hc hnd
    have ha : 2 ≤ countOf s a := hc a (by simp)
    obtain ⟨inn, hg⟩ := countOf_pos_get? s a (by omega)
    have hdt := dropTracked_high s a ha
    have hnd2 : rest.Nodup := (List.nodup_cons.mp hnd).2
    have hna : a ∉ rest := (List.nodup_cons.mp hnd).1
    set s1 := updInner s a (fun inn => { inn with count := inn.count - 1 })
      with hs1
    have hc1 : ∀ i ∈ rest, 2 ≤ countOf s1 i := by
      intro i hi
      have heq : s1.heap.get? i = s.heap.get? i :=
        updInner_get?_ne s a i _ (fun he => hna (he ▸ hi))
      rw [countOf_congr_get? s1 s i heq]
      exact hc i (by simp [hi])
    obtain ⟨h2items, h2queue, h2notif, h2out, h2in⟩ := ih s1 hc1 hnd2
    have hloop : dropAll s (a :: rest) = dropAll s1 rest := by
      show dropAll (dropTracked s a) rest = dropAll s1 rest
      rw [hdt]
    rw [hloop]
    refine ⟨?_, ?_, ?_, ?_, ?_⟩
    · rw [h2items, hs1, updInner_items]
    · rw [h2queue, hs1, updInner_queue]
    · rw [h2notif, hs1, updInner_notif]
    · intro j hj
      have hja : j ≠ a := fun he => hj (by simp [he])
      have hjr : j ∉ rest := fun hm => hj (by simp [hm])
      rw [h2out j hjr]
      exact updInner_get?_ne s a j _ (fun he => hja he.symm)
    · intro j hj inn2 hg2
      rcases List.mem_cons.mp hj with he | hm
      · subst he
        have hinn : inn2 = inn := by rw [hg] at hg2; exact (Option.some.inj hg2).symm
        subst hinn
        have hs1g : s1.heap.get? j = some { inn2 with count := inn2.count - 1 } :=
          updInner_get?_self s j _ inn2 hg2
        rw [h2out j hna, hs1g]
      · have hja : a ≠ j := fun he => hna (he ▸ hm)
        have heq : s1.heap.get? j = s.heap.get? j := updInner_get?_ne s a j _ hja
        refine h2in j hm inn2 ?_
        rw [heq, hg2]

/-! ### `track`: unfolding and invariant preservation -/

theorem get?_append_length (l : List α) (x : α) :
    (l ++ [x]).get? l.length = some x := by
  rw [List.get?_append_right (Nat.le_refl _)]
  simp

theorem get?_append_lt (l1 l2 : List α) (n : Nat) (h : n < l1.length) :
    (l1 ++ l2).get? n = l1.get? n :=
  List.get?_append h

theorem set_append_length (l : List α) (x y : α) :
    (l ++ [x]).set l.length y = l ++ [y] := by
  rw [List.set_append]
  simp

theorem track_eq (s : Stash T) (v : T) (hq : s.queue = []) :
    track s v =
      ({ heap := s.heap ++ [⟨v, 1, s.items.length⟩],
         items := s.items ++ [s.heap.length],
         queue := [], notif := s.notif + 1 }, s.heap.length) := by
  simp only [track]
  rw [purge_of_queue_nil s hq]
  rw [make_tracked_object_force]
  have hupd :
      updInner ({ s with heap := s.heap ++ [⟨v, 0, s.items.length⟩] } : Stash T)
        s.heap.length (fun inn => { inn with count := inn.count + 1 }) =
      { s with heap := s.heap ++ [⟨v, 1, s.items.length⟩] } := by
    unfold updInner
    rw [show ({ s with heap := s.heap ++ [⟨v, 0, s.items.length⟩] } :
        Stash T).heap.get? s.heap.length = some ⟨v, 0, s.items.length⟩ from
      get?_append_length s.heap _]
    simp only []
    rw [show (s.heap ++ [(⟨v, 0, s.items.length⟩ : Inner T)]).set s.heap.length
        ⟨v, 1, s.items.length⟩ = s.heap ++ [⟨v, 1, s.items.length⟩] from
      set_append_length s.heap _ _]
  rw [hupd]
  simp [hq]
theorem track_wf (s : Stash T) (H : List Nat) (v : T) (hWf : Wf s H) :
    Wf (track s v).1 ((track s v).2 :: H) := by
  obtain ⟨hq, hnd, hvalid, hmemH, hcount, hpos, hidx⟩ := hWf
  suffices hW : Wf (⟨s.heap ++ [⟨v, 1, s.items.length⟩],
      s.items ++ [s.heap.length], [], s.notif + 1⟩ : Stash T)
      (s.heap.length :: H) by
    rw [track_eq s v hq]
    exact hW
  set id := s.heap.length with hid
  set sNew : Stash T := (⟨s.heap ++ [⟨v, 1, s.items.length⟩],
      s.items ++ [id], [], s.notif + 1⟩ : Stash T) with hsNew
  have hidnot : id ∉ s.items := fun hm => by
    have := hvalid id hm; omega
  have hidnotH : id ∉ H := fun hm => hidnot (hmemH id hm)
  have hget_old : ∀ i, i < s.heap.length →
      sNew.heap.get? i = s.heap.get? i := by
    intro i hi
    exact get?_append_lt _ _ i hi
  have hget_new : sNew.heap.get? id = some ⟨v, 1, s.items.length⟩ :=
    get?_append_length _ _
  have hlen : sNew.heap.length = s.heap.length + 1 := by simp [hsNew]
  unfold Wf
  refine ⟨rfl, ?_, ?_, ?_, ?_, ?_, ?_⟩
  · exact nodup_snoc_intro s.items id hnd hidnot
  · intro i hi
    rcases List.mem_append.mp hi with hm | hm
    · have := hvalid i hm; omega
    · have : i = id := by simpa using hm
      omega
  · intro i hi
    rcases List.mem_cons.mp hi with he | hm
    · subst he; exact List.mem_append.mpr (Or.inr (by simp))
    · exact List.mem_append.mpr (Or.inl (hmemH i hm))
  · intro i hi
    rcases List.mem_append.mp hi with hm | hm
    · have hlt := hvalid i hm
      have hne : i ≠ id := by omega
      rw [countOf_congr_get? sNew s i (hget_old i hlt), hcount i hm,
        List.count_cons]
      simp [hne.symm]
    · have he : i = id := by simpa using hm
      subst he
      rw [countOf_eq_of_get? sNew id _ hget_new, List.count_cons,
        List.count_eq_zero_of_not_mem hidnotH]
      simp
  · intro i hi
    rcases List.mem_append.mp hi with hm | hm
    · have hge := hpos i hm
      rw [List.count_cons]
      omega
    · have he : i = id := by simpa using hm
      subst he
      rw [List.count_cons, List.count_eq_zero_of_not_mem hidnotH]
      simp
  · rw [idxOkFrom_append]
    have hcongr : idxOkFrom sNew s.items 0 = idxOkFrom s s.items 0 :=
      idxOkFrom_congr sNew s s.items 0
        (fun i hi => idxOf_congr_get? sNew s i (hget_old i (hvalid i hi)))
    have h2 : idxOkFrom sNew [id] (0 + s.items.length) = true := by
      simp only [idxOkFrom, Bool.and_eq_true, beq_iff_eq]
      refine ⟨?_, trivial⟩
      rw [idxOf_eq_of_get? sNew id _ hget_new]
      simp
    rw [hcongr, hidx, h2]
    rfl

/-! ### `clone`: success and invariant preservation -/

theorem clone_some (s : Stash T) (H : List Nat) (h : Nat) (hWf : Wf s H)
    (hh : h ∈ H) :
    cloneTracked s h =
      (updInner s h (fun inn => { inn with count := inn.count + 1 }),
        some h) := by
  obtain ⟨hq, hnd, hvalid, hmemH, hcount, hpos, hidx⟩ := hWf
  have hmem : h ∈ s.items := hmemH h hh
  have hc : 1 ≤ countOf s h := by
    rw [hcount h hmem]; exact hpos h hmem
  exact make_tracked_object_pos s h false hc

theorem clone_wf (s : Stash T) (H : List Nat) (h : Nat) (hWf : Wf s H)
    (hh : h ∈ H) : Wf (cloneTracked s h).1 (h :: H) := by
  have hcl := clone_some s H h hWf hh
  obtain ⟨hq, hnd, hvalid, hmemH, hcount, hpos, hidx⟩ := hWf
  have hmem : h ∈ s.items := hmemH h hh
  have hc : 1 ≤ countOf s h := by
    rw [hcount h hmem]; exact hpos h hmem
  obtain ⟨inn, hg⟩ := countOf_pos_get? s h hc
  rw [hcl]
  set s1 := updInner s h (fun inn => { inn with count := inn.count + 1 })
    with hs1
  have hg1 : s1.heap.get? h = some { inn with count := inn.count + 1 } :=
    updInner_get?_self s h _ inn hg
  have hgne : ∀ j, j ≠ h → s1.heap.get? j = s.heap.get? j := by
    intro j hj
    exact updInner_get?_ne s h j _ (fun he => hj he.symm)
  unfold Wf
  refine ⟨?_, ?_, ?_, ?_, ?_, ?_, ?_⟩
  · rw [hs1, updInner_queue]; exact hq
  · rw [hs1, updInner_items]; exact hnd
  · intro i hi
    rw [hs1, updInner_items] at hi
    rw [hs1, updInner_heap_length]
    exact hvalid i hi
  · intro i hi
    rw [hs1, updInner_items]
    rcases List.mem_cons.mp hi with he | hm
    · subst he; exact hmem
    · exact hmemH i hm
  · intro i hi
    rw [hs1, updInner_items] at hi
    by_cases he : i = h
    · subst he
      rw [countOf_eq_of_get? s1 i _ hg1, List.count_cons]
      have : countOf s i = inn.count := countOf_eq_of_get? s i inn hg
      rw [hcount i hi] at this
      simp only [beq_iff_eq, if_pos rfl]
      show inn.count + 1 = List.count i H + 1
      omega
    · rw [countOf_congr_get? s1 s i (hgne i he), hcount i hi, List.count_cons]
      have : ¬ (h == i) = true := by simpa using fun hx => he hx.symm
      simp [this]
  · intro i hi
    rw [hs1, updInner_items] at hi
    rw [List.count_cons]
    have := hpos i hi
    omega
  · rw [hs1, updInner_items]
    have hcongr : idxOkFrom s1 s.items 0 = idxOkFrom s s.items 0 := by
      refine idxOkFrom_congr s1 s s.items 0 ?_
      intro i hi
      by_cases he : i = h
      · subst he
        rw [idxOf_eq_of_get? s1 i _ hg1, idxOf_eq_of_get? s i inn hg]
      · exact idxOf_congr_get? s1 s i (hgne i he)
    rw [hcongr]; exact hidx

/-! ### `drop`: invariant preservation, including physical removal of the
last-referenced slot -/

theorem idxOf_updInner_count (s : Stash T) (h : Nat) (g : Nat → Nat) :
    ∀ j, idxOf (updInner s h (fun inn => { inn with count := g inn.count })) j
      = idxOf s j := by
  intro j
  by_cases he : h = j
  · subst he
    cases hg : s.heap.get? h with
    | none =>
      unfold updInner
      rw [hg]
    | some inn =>
      rw [idxOf_eq_of_get? _ h _ (updInner_get?_self s h _ inn hg),
        idxOf_eq_of_get? s h inn hg]
  · exact idxOf_congr_get? _ s j (updInner_get?_ne s h j _ he)

theorem drop_wf_high (s : Stash T) (H : List Nat) (h : Nat) (hWf : Wf s H)
    (hh : h ∈ H) (hocc : 2 ≤ H.count h) :
    Wf (dropTracked s h) (H.erase h) ∧
    (dropTracked s h).items = s.items ∧
    (dropTracked s h).heap.length = s.heap.length := by
  obtain ⟨hq, hnd, hvalid, hmemH, hcount, hpos, hidx⟩ := hWf
  have hmem : h ∈ s.items := hmemH h hh
  have hc : 2 ≤ countOf s h := by rw [hcount h hmem]; exact hocc
  obtain ⟨inn, hg⟩ := countOf_pos_get? s h (by omega)
  rw [dropTracked_high s h hc]
  set s1 := updInner s h (fun inn => { inn with count := inn.count - 1 })
    with hs1
  have hg1 : s1.heap.get? h = some { inn with count := inn.count - 1 } :=
    updInner_get?_self s h _ inn hg
  have hgne : ∀ j, j ≠ h → s1.heap.get? j = s.heap.get? j := by
    intro j hj
    exact updInner_get?_ne s h j _ (fun he => hj he.symm)
  have hitems1 : s1.items = s.items := by rw [hs1, updInner_items]
  refine ⟨⟨?_, ?_, ?_, ?_, ?_, ?_, ?_⟩, hitems1, by rw [hs1, updInner_heap_length]⟩
  · rw [hs1, updInner_queue]; exact hq
  · rw [hitems1]; exact hnd
  · intro i hi
    rw [hitems1] at hi
    rw [hs1, updInner_heap_length]
    exact hvalid i hi
  · intro i hi
    rw [hitems1]
    exact hmemH i (List.mem_of_mem_erase hi)
  · intro i hi
    rw [hitems1] at hi
    by_cases he : i = h
    · subst he
      rw [countOf_eq_of_get? s1 i _ hg1]
      show inn.count - 1 = List.count i (H.erase i)
      rw [List.count_erase_self]
      have : countOf s i = inn.count := countOf_eq_of_get? s i inn hg
      rw [hcount i hi] at this
      omega
    · rw [countOf_congr_get? s1 s i (hgne i he), hcount i hi,
        List.count_erase_of_ne he]
  · intro i hi
    rw [hitems1] at hi
    by_cases he : i = h
    · subst he
      rw [List.count_erase_self]
      omega
    · rw [List.count_erase_of_ne he]
      exact hpos i hi
  · rw [hitems1]
    have hcongr : idxOkFrom s1 s.items 0 = idxOkFrom s s.items 0 :=
      idxOkFrom_congr s1 s s.items 0
        (fun i _ => idxOf_updInner_count s h (fun c => c - 1) i)
    rw [hcongr]; exact hidx
theorem dropTracked_low (s : Stash T) (h : Nat) (hq : s.queue = [])
    (hc : countOf s h ≤ 1) :
    dropTracked s h =
      { remove_with_lock
          (updInner s h (fun inn => { inn with count := inn.count - 1 })) h
        with notif :=
          (remove_with_lock
            (updInner s h (fun inn => { inn with count := inn.count - 1 }))
            h).notif + 1 } := by
  unfold dropTracked
  simp only [hc, if_pos]
  set s1 := updInner s h (fun inn => { inn with count := inn.count - 1 })
    with hs1
  have hq1 : s1.queue = [] := by rw [hs1, updInner_queue]; exact hq
  unfold purge
  rw [hq1]
  simp only [List.nil_append, List.isEmpty_cons, if_false]
  have hback : ({ { s1 with queue := [h] } with queue := [] } : Stash T) = s1 :=
    Stash.ext _ _ rfl rfl hq1.symm rfl
  show { drainQueue { { s1 with queue := [h] } with queue := [] } [h] with
      notif := (drainQueue { { s1 with queue := [h] } with queue := [] } [h]).notif + 1 } = _
  rw [hback]
  rfl
theorem countOf_congr_heap (X Y : Stash T) (h : X.heap = Y.heap) (i : Nat) :
    countOf X i = countOf Y i :=
  countOf_congr_get? X Y i (by rw [h])

theorem idxOf_congr_heap (X Y : Stash T) (h : X.heap = Y.heap) (i : Nat) :
    idxOf X i = idxOf Y i :=
  idxOf_congr_get? X Y i (by rw [h])

theorem idxOkFrom_congr_heap (X Y : Stash T) (h : X.heap = Y.heap)
    (l : List Nat) (k : Nat) : idxOkFrom X l k = idxOkFrom Y l k :=
  idxOkFrom_congr X Y l k (fun i _ => idxOf_congr_heap X Y h i)
theorem drop_wf_low (s : Stash T) (H : List Nat) (h : Nat) (hWf : Wf s H)
    (hh : h ∈ H) (hocc : H.count h = 1) :
    Wf (dropTracked s h) (H.erase h) ∧
    (∀ i ∈ (dropTracked s h).items, i ∈ s.items) ∧
    (dropTracked s h).heap.length = s.heap.length ∧
    h ∉ (dropTracked s h).items := by
  obtain ⟨hq, hnd, hvalid, hmemH, hcount, hpos, hidx⟩ := hWf
  have hmem : h ∈ s.items := hmemH h hh
  have hc1 : countOf s h = 1 := by rw [hcount h hmem]; exact hocc
  obtain ⟨inn, hg⟩ := countOf_pos_get? s h (by omega)
  have hrw := dropTracked_low s h hq (by omega)
  set s1 := updInner s h (fun inn => { inn with count := inn.count - 1 })
    with hs1
  have hgne : ∀ j, j ≠ h → s1.heap.get? j = s.heap.get? j := fun j hj =>
    updInner_get?_ne s h j _ (fun he => hj he.symm)
  have hitems1 : s1.items = s.items := by rw [hs1, updInner_items]
  have hq1 : s1.queue = [] := by rw [hs1, updInner_queue]; exact hq
  have hlen1 : s1.heap.length = s.heap.length := by
    rw [hs1, updInner_heap_length]
  have hidx1 : ∀ j, idxOf s1 j = idxOf s j :=
    idxOf_updInner_count s h (fun c => c - 1)
  have hcount1 : ∀ j, j ≠ h → countOf s1 j = countOf s j := fun j hj =>
    countOf_congr_get? s1 s j (hgne j hj)
  have hHe : h ∉ H.erase h := by
    refine List.not_mem_of_count_eq_zero ?_
    rw [List.count_erase_self]
    omega
  obtain ⟨A, B, hAB⟩ := List.append_of_mem hmem
  have hok : idxOkFrom s (A ++ h :: B) 0 = true := by rw [← hAB]; exact hidx
  obtain ⟨hidxh, hokA, hokB⟩ := idxOk_extract s A B h hok
  have hndAB : (A ++ h :: B).Nodup := by rw [← hAB]; exact hnd
  have hmemAB : ∀ i, i ∈ s.items ↔ i ∈ A ++ h :: B := by
    intro i; rw [hAB]
  rcases List.eq_nil_or_concat B with hBnil | ⟨B0, L, hBL⟩
  · subst hBnil
    obtain ⟨hndA, hhA⟩ := nodup_snoc A h hndAB
    have hRL : remove_with_lock s1 h = { s1 with items := A } := by
      refine remove_with_lock_last s1 h A ?_ ?_
      · rw [hitems1, hAB]
      · rw [hidx1 h]; exact hidxh
    have hGheap : (dropTracked s h).heap = s1.heap := by rw [hrw, hRL]
    have hGitems : (dropTracked s h).items = A := by rw [hrw, hRL]
    have hGqueue : (dropTracked s h).queue = [] := by rw [hrw, hRL]; exact hq1
    have hsubA : ∀ i ∈ A, i ∈ s.items := by
      intro i hi
      rw [hmemAB i]
      exact List.mem_append.mpr (Or.inl hi)
    have hAne : ∀ i ∈ A, i ≠ h := fun i hi he => hhA (he ▸ hi)
    have hGcount : ∀ i, countOf (dropTracked s h) i = countOf s1 i :=
      countOf_congr_heap _ s1 hGheap
    refine ⟨⟨hGqueue, ?_, ?_, ?_, ?_, ?_, ?_⟩, ?_, ?_, ?_⟩
    · rw [hGitems]; exact hndA
    · intro i hi
      rw [hGitems] at hi
      rw [hGheap, hlen1]
      exact hvalid i (hsubA i hi)
    · intro i hi
      rw [hGitems]
      have hiH : i ∈ H := List.mem_of_mem_erase hi
      have hine : i ≠ h := fun he => hHe (he ▸ hi)
      have hmm := (hmemAB i).mp (hmemH i hiH)
      rcases List.mem_append.mp hmm with hm | hm
      · exact hm
      · exact absurd (by simpa using hm) hine
    · intro i hi
      rw [hGitems] at hi
      have hine := hAne i hi
      rw [hGcount i, hcount1 i hine, hcount i (hsubA i hi),
        List.count_erase_of_ne hine]
    · intro i hi
      rw [hGitems] at hi
      rw [List.count_erase_of_ne (hAne i hi)]
      exact hpos i (hsubA i hi)
    · rw [hGitems, idxOkFrom_congr_heap _ s1 hGheap A 0,
        idxOkFrom_congr s1 s A 0 (fun i _ => hidx1 i)]
      exact hokA
    · intro i hi
      rw [hGitems] at hi
      exact hsubA i hi
    · rw [hGheap]; exact hlen1
    · rw [hGitems]; exact hhA
  · rw [List.concat_eq_append] at hBL
    subst hBL
    obtain ⟨hndAL, hhA, hhB0, hhL, hLA, hLB0⟩ := nodup_decomp A B0 h L hndAB
    have hLmem : L ∈ s.items := by
      rw [hmemAB L]
      simp
    obtain ⟨innL, hgL⟩ := countOf_pos_get? s L (by
      rw [hcount L hLmem]; exact hpos L hLmem)
    have hg1L : s1.heap.get? L = some innL := by
      rw [hgne L (fun he => hhL he.symm)]; exact hgL
    have hRL : remove_with_lock s1 h =
        updInner { s1 with items := A ++ L :: B0 } L
          (fun inn => { inn with idx := A.length }) := by
      refine remove_with_lock_swap s1 h L A B0 ?_ ?_
      · rw [hitems1, hAB]
      · rw [hidx1 h]; exact hidxh
    set F := updInner { s1 with items := A ++ L :: B0 } L
      (fun inn => { inn with idx := A.length }) with hF
    have hFitems : F.items = A ++ L :: B0 := by rw [hF, updInner_items]
    have hFqueue : F.queue = [] := by rw [hF, updInner_queue]; exact hq1
    have hFlen : F.heap.length = s.heap.length := by
      rw [hF, updInner_heap_length]
      exact hlen1
    have hFgL : F.heap.get? L = some { innL with idx := A.length } :=
      updInner_get?_self _ L _ innL hg1L
    have hFgne : ∀ j, j ≠ L → j ≠ h → F.heap.get? j = s.heap.get? j := by
      intro j hjL hjh
      rw [hF, updInner_get?_ne _ L j _ (fun he => hjL he.symm)]
      exact hgne j hjh
    have hGheap : (dropTracked s h).heap = F.heap := by rw [hrw, hRL]
    have hGitems : (dropTracked s h).items = A ++ L :: B0 := by
      rw [hrw, hRL]; exact hFitems
    have hGqueue : (dropTracked s h).queue = [] := by
      rw [hrw, hRL]; exact hFqueue
    have hsub : ∀ i ∈ A ++ L :: B0, i ∈ s.items := by
      intro i hi
      rw [hmemAB i]
      rcases List.mem_append.mp hi with hm | hm
      · exact List.mem_append.mpr (Or.inl hm)
      · rcases List.mem_cons.mp hm with he | hm2
        · subst he; simp
        · refine List.mem_append.mpr (Or.inr ?_)
          simp [hm2]
    have hine : ∀ i ∈ A ++ L :: B0, i ≠ h := by
      intro i hi he
      subst he
      rcases List.mem_append.mp hi with hm | hm
      · exact hhA hm
      · rcases List.mem_cons.mp hm with he2 | hm2
        · exact hhL he2
        · exact hhB0 hm2
    have hcountF : ∀ i ∈ A ++ L :: B0, countOf F i = countOf s i := by
      intro i hi
      by_cases heL : i = L
      · subst heL
        rw [countOf_eq_of_get? F i _ hFgL, countOf_eq_of_get? s i innL hgL]
      · rw [countOf_congr_get? F s i (hFgne i heL (hine i hi))]
    have hGcount : ∀ i, countOf (dropTracked s h) i = countOf F i :=
      countOf_congr_heap _ F hGheap
    refine ⟨⟨hGqueue, ?_, ?_, ?_, ?_, ?_, ?_⟩, ?_, ?_, ?_⟩
    · rw [hGitems]; exact hndAL
    · intro i hi
      rw [hGitems] at hi
      rw [hGheap, hFlen]
      exact hvalid i (hsub i hi)
    · intro i hi
      rw [hGitems]
      have hiH : i ∈ H := List.mem_of_mem_erase hi
      have hineh : i ≠ h := fun he => hHe (he ▸ hi)
      have hmm := (hmemAB i).mp (hmemH i hiH)
      rcases List.mem_append.mp hmm with hm | hm
      · exact List.mem_append.mpr (Or.inl hm)
      · rcases List.mem_cons.mp hm with he2 | hm2
        · exact absurd he2 hineh
        · rcases List.mem_append.mp hm2 with hm3 | hm3
          · refine List.mem_append.mpr (Or.inr ?_)
            simp [hm3]
          · have he3 : i = L := by simpa using hm3
            subst he3
            refine List.mem_append.mpr (Or.inr ?_)
            simp
    · intro i hi
      rw [hGitems] at hi
      rw [hGcount i, hcountF i hi, hcount i (hsub i hi),
        List.count_erase_of_ne (hine i hi)]
    · intro i hi
      rw [hGitems] at hi
      rw [List.count_erase_of_ne (hine i hi)]
      exact hpos i (hsub i hi)
    · rw [hGitems, idxOkFrom_congr_heap _ F hGheap _ 0, idxOkFrom_append]
      have hA2 : idxOkFrom F A 0 = true := by
        rw [idxOkFrom_congr F s A 0 (fun i hi => idxOf_congr_get? F s i
          (hFgne i (fun he => hLA (he ▸ hi)) (fun he => hhA (he ▸ hi))))]
        exact hokA
      have hokB0 : idxOkFrom s B0 (A.length + 1) = true := by
        rw [idxOkFrom_append] at hokB
        exact ((Bool.and_eq_true _ _).mp hokB).1
      have hcons : idxOkFrom F (L :: B0) (0 + A.length) = true := by
        simp only [idxOkFrom, Bool.and_eq_true, beq_iff_eq]
        constructor
        · rw [idxOf_eq_of_get? F L _ hFgL]
          simp
        · rw [idxOkFrom_congr F s B0 (0 + A.length + 1)
            (fun i hi => idxOf_congr_get? F s i
              (hFgne i (fun he => hLB0 (he ▸ hi)) (fun he => hhB0 (he ▸ hi))))]
          simpa using hokB0
      rw [hA2, hcons]
      rfl
    · intro i hi
      rw [hGitems] at hi
      exact hsub i hi
    · rw [hGheap]; exact hFlen
    · rw [hGitems]
      intro hcontra
      exact (hine h hcontra) rfl
theorem drop_wf (s : Stash T) (H : List Nat) (h : Nat) (hWf : Wf s H)
    (hh : h ∈ H) :
    Wf (dropTracked s h) (H.erase h) ∧
    (∀ i ∈ (dropTracked s h).items, i ∈ s.items) ∧
    (dropTracked s h).heap.length = s.heap.length ∧
    (H.count h = 1 → h ∉ (dropTracked s h).items) := by
  have hcpos : 1 ≤ H.count h := by
    have := List.count_pos_iff.mpr hh
    omega
  by_cases hone : H.count h = 1
  · obtain ⟨hW, hsub, hlen, hnot⟩ := drop_wf_low s H h hWf hh hone
    exact ⟨hW, hsub, hlen, fun _ => hnot⟩
  · have h2 : 2 ≤ H.count h := by omega
    obtain ⟨hW, hitems, hlen⟩ := drop_wf_high s H h hWf hh h2
    refine ⟨hW, ?_, hlen, fun hc => absurd hc hone⟩
    intro i hi
    rw [hitems] at hi
    exact hi

/-! ### `list`: characterization and invariant preservation -/

theorem list_eq (s : Stash T) (H : List Nat) (hWf : Wf s H) :
    (list s).2 = s.items ∧
    (list s).1.items = s.items ∧
    (list s).1.queue = [] ∧
    (list s).1.notif = s.notif ∧
    (list s).1.heap.length = s.heap.length ∧
    (∀ j, j ∉ s.items → (list s).1.heap.get? j = s.heap.get? j) ∧
    (∀ j ∈ s.items, ∀ inn, s.heap.get? j = some inn →
      (list s).1.heap.get? j = some { inn with count := inn.count + 1 }) := by
  obtain ⟨hq, hnd, hvalid, hmemH, hcount, hpos, hidx⟩ := hWf
  have hcpos : ∀ i ∈ s.items, 1 ≤ countOf s i := by
    intro i hi
    rw [hcount i hi]
    exact hpos i hi
  have hlist : list s = listLoop s s.items := by
    unfold list items_copy
    rw [purge_of_queue_nil s hq]
  obtain ⟨h1, h2, h3, h4, h5, h6, h7⟩ := listLoop_spec s.items s hcpos hnd
  rw [hlist]
  exact ⟨h1, h2, h3.trans hq, h4, h5, h6, h7⟩

theorem list_wf (s : Stash T) (H : List Nat) (hWf : Wf s H) :
    Wf (list s).1 ((list s).2 ++ H) := by
  obtain ⟨hsnap, hitems, hqueue, hnotif, hlen, hout, hin⟩ := list_eq s H hWf
  obtain ⟨hq, hnd, hvalid, hmemH, hcount, hpos, hidx⟩ := hWf
  rw [hsnap]
  have hcnt : ∀ i ∈ s.items, countOf (list s).1 i = countOf s i + 1 := by
    intro i hi
    obtain ⟨inn, hg⟩ := countOf_pos_get? s i (by
      rw [hcount i hi]; exact hpos i hi)
    rw [countOf_eq_of_get? _ i _ (hin i hi inn hg),
      countOf_eq_of_get? s i inn hg]
  refine ⟨hqueue, ?_, ?_, ?_, ?_, ?_, ?_⟩
  · rw [hitems]; exact hnd
  · intro i hi
    rw [hitems] at hi
    rw [hlen]
    exact hvalid i hi
  · intro i hi
    rw [hitems]
    rcases List.mem_append.mp hi with hm | hm
    · exact hm
    · exact hmemH i hm
  · intro i hi
    rw [hitems] at hi
    rw [hcnt i hi, hcount i hi, List.count_append,
      List.count_eq_one_of_mem hnd hi]
    omega
  · intro i hi
    rw [hitems] at hi
    rw [List.count_append, List.count_eq_one_of_mem hnd hi]
    omega
  · rw [hitems]
    have hcongr : idxOkFrom (list s).1 s.items 0 = idxOkFrom s s.items 0 := by
      refine idxOkFrom_congr _ s s.items 0 ?_
      intro i hi
      obtain ⟨inn, hg⟩ := countOf_pos_get? s i (by
        rw [hcount i hi]; exact hpos i hi)
      rw [idxOf_eq_of_get? _ i _ (hin i hi inn hg),
        idxOf_eq_of_get? s i inn hg]
    rw [hcongr]
    exact hidx

/-! ### Listing then dropping the snapshot restores the state exactly -/

theorem list_drop_restore (s : Stash T) (H : List Nat) (hWf : Wf s H) :
    dropAll (list s).1 (list s).2 = s := by
  obtain ⟨hsnap, hitems, hqueue, hnotif, hlen, hout, hin⟩ := list_eq s H hWf
  obtain ⟨hq, hnd, hvalid, hmemH, hcount, hpos, hidx⟩ := hWf
  set S1 := (list s).1 with hS1
  have hc2 : ∀ i ∈ s.items, 2 ≤ countOf S1 i := by
    intro i hi
    obtain ⟨inn, hg⟩ := countOf_pos_get? s i (by
      rw [hcount i hi]; exact hpos i hi)
    have hcs : countOf s i = inn.count := countOf_eq_of_get? s i inn hg
    rw [countOf_eq_of_get? S1 i _ (hin i hi inn hg)]
    show 2 ≤ inn.count + 1
    have : 1 ≤ countOf s i := by rw [hcount i hi]; exact hpos i hi
    omega
  rw [hsnap]
  obtain ⟨d1, d2, d3, d4, d5⟩ := dropAll_spec s.items S1 hc2 hnd
  refine Stash.ext _ _ ?_ ?_ ?_ ?_
  · refine List.ext ?_
    intro n
    by_cases hn : n ∈ s.items
    · obtain ⟨inn, hg⟩ := countOf_pos_get? s n (by
        rw [hcount n hn]; exact hpos n hn)
      rw [d5 n hn _ (hin n hn inn hg), hg]
      show some { inn with count := inn.count + 1 - 1 } = some inn
      cases inn
      simp
    · rw [d4 n hn, hout n hn]
  · rw [d1, hitems]
  · rw [d2, hqueue, hq]
  · rw [d3, hnotif]

/-! ### Multi-step executions and dead slots -/

theorem map_eq (s : Stash T) (H : List Nat) (h : Nat) (f : T → T)
    (hWf : Wf s H) (hh : h ∈ H) :
    ∃ v, valOf s h = some v ∧ mapTracked s h f = track s (f v) := by
  obtain ⟨hq, hnd, hvalid, hmemH, hcount, hpos, hidx⟩ := hWf
  have hmem : h ∈ s.items := hmemH h hh
  obtain ⟨inn, hg⟩ := countOf_pos_get? s h (by
    rw [hcount h hmem]; exact hpos h hmem)
  refine ⟨inn.val, ?_, ?_⟩
  · unfold valOf; rw [hg]; rfl
  · unfold mapTracked
    unfold valOf
    rw [hg]
    rfl

/-- The caller-visible operations, chained from a starting configuration:
a configuration is a registry state together with the multiset of handle ids
the callers currently hold (loose handles and snapshot elements alike).
`drop`, `clone` and `map` steps require the caller to actually hold the
handle being used. -/
inductive Steps (s : Stash T) (H : List Nat) : Stash T → List Nat → Prop
  | refl : Steps s H s H
  | trackStep (s2 : Stash T) (H2 : List Nat) (v : T)
      (hs : Steps s H s2 H2) :
      Steps s H (track s2 v).1 ((track s2 v).2 :: H2)
  | cloneStep (s2 : Stash T) (H2 : List Nat) (h : Nat)
      (hs : Steps s H s2 H2) (hh : h ∈ H2) :
      Steps s H (cloneTracked s2 h).1 (h :: H2)
  | dropStep (s2 : Stash T) (H2 : List Nat) (h : Nat)
      (hs : Steps s H s2 H2) (hh : h ∈ H2) :
      Steps s H (dropTracked s2 h) (H2.erase h)
  | listStep (s2 : Stash T) (H2 : List Nat)
      (hs : Steps s H s2 H2) :
      Steps s H (list s2).1 ((list s2).2 ++ H2)
  | mapStep (s2 : Stash T) (H2 : List Nat) (h : Nat) (f : T → T)
      (hs : Steps s H s2 H2) (hh : h ∈ H2) :
      Steps s H (mapTracked s2 h f).1 ((mapTracked s2 h f).2 :: H2)

theorem steps_wf (s : Stash T) (H : List Nat) (s2 : Stash T) (H2 : List Nat)
    (hst : Steps s H s2 H2) (hWf : Wf s H) : Wf s2 H2 := by
  induction hst with
  | refl => exact hWf
  | trackStep s2 H2 v hs ih => exact track_wf s2 H2 v ih
  | cloneStep s2 H2 h hs hh ih => exact clone_wf s2 H2 h ih hh
  | dropStep s2 H2 h hs hh ih => exact (drop_wf s2 H2 h ih hh).1
  | listStep s2 H2 hs ih => exact list_wf s2 H2 ih
  | mapStep s2 H2 h f hs hh ih =>
    obtain ⟨v, hval, hmape⟩ := map_eq s2 H2 h f ih hh
    rw [hmape]
    exact track_wf s2 H2 (f v) ih

/-- A slot id that is allocated but no longer present anywhere: not in the
items vector and not wrapped by any outstanding handle. -/
def DeadSlot (s : Stash T) (H : List Nat) (h : Nat) : Prop :=
  h < s.heap.length ∧ h ∉ s.items ∧ h ∉ H

theorem track_dead (s : Stash T) (H : List Nat) (v : T) (h : Nat)
    (hWf : Wf s H) (hd : DeadSlot s H h) :
    DeadSlot (track s v).1 ((track s v).2 :: H) h := by
  obtain ⟨hlt, hni, hnH⟩ := hd
  have hq : s.queue = [] := hWf.1
  rw [track_eq s v hq]
  unfold DeadSlot
  refine ⟨?_, ?_, ?_⟩
  · show h < (s.heap ++ [(⟨v, 1, s.items.length⟩ : Inner T)]).length
    simp
    omega
  · intro hmem
    rcases List.mem_append.mp hmem with hm | hm
    · exact hni hm
    · have : h = s.heap.length := by simpa using hm
      omega
  · intro hmem
    rcases List.mem_cons.mp hmem with he | hm
    · omega
    · exact hnH hm

theorem steps_dead (s : Stash T) (H : List Nat) (s2 : Stash T) (H2 : List Nat)
    (h : Nat) (hst : Steps s H s2 H2) (hWf : Wf s H) (hd : DeadSlot s H h) :
    DeadSlot s2 H2 h := by
  induction hst with
  | refl => exact hd
  | trackStep s2 H2 v hs ih =>
    exact track_dead s2 H2 v h (steps_wf _ _ _ _ hs hWf) ih
  | cloneStep s2 H2 h2 hs hh ih =>
    obtain ⟨hlt, hni, hnH⟩ := ih
    have hW2 := steps_wf _ _ _ _ hs hWf
    rw [clone_some s2 H2 h2 hW2 hh]
    unfold DeadSlot
    refine ⟨?_, ?_, ?_⟩
    · show h < (updInner s2 h2 _).heap.length
      rw [updInner_heap_length]
      exact hlt
    · show h ∉ (updInner s2 h2 _).items
      rw [updInner_items]
      exact hni
    · intro hmem
      rcases List.mem_cons.mp hmem with he | hm
      · exact hnH (he ▸ hh)
      · exact hnH hm
  | dropStep s2 H2 h2 hs hh ih =>
    obtain ⟨hlt, hni, hnH⟩ := ih
    have hW2 := steps_wf _ _ _ _ hs hWf
    obtain ⟨hW3, hsub, hlen, hlast⟩ := drop_wf s2 H2 h2 hW2 hh
    unfold DeadSlot
    refine ⟨by rw [hlen]; exact hlt, ?_, ?_⟩
    · intro hmem
      exact hni (hsub h hmem)
    · intro hmem
      exact hnH (List.mem_of_mem_erase hmem)
  | listStep s2 H2 hs ih =>
    obtain ⟨hlt, hni, hnH⟩ := ih
    have hW2 := steps_wf _ _ _ _ hs hWf
    obtain ⟨hsnap, hitems, hqueue, hnotif, hlen, hout, hin⟩ :=
      list_eq s2 H2 hW2
    unfold DeadSlot
    refine ⟨by rw [hlen]; exact hlt, by rw [hitems]; exact hni, ?_⟩
    intro hmem
    rcases List.mem_append.mp hmem with hm | hm
    · rw [hsnap] at hm
      exact hni hm
    · exact hnH hm
  | mapStep s2 H2 h2 f hs hh ih =>
    have hW2 := steps_wf _ _ _ _ hs hWf
    obtain ⟨v, hval, hmape⟩ := map_eq s2 H2 h2 f hW2 hh
    rw [hmape]
    exact track_dead s2 H2 (f v) h hW2 ih

theorem steps_snapshot_free (s : Stash T) (H : List Nat) (s2 : Stash T)
    (H2 : List Nat) (h : Nat) (hst : Steps s H s2 H2) (hWf : Wf s H)
    (hd : DeadSlot s H h) : h ∉ s2.items ∧ h ∉ (list s2).2 := by
  have hd2 := steps_dead s H s2 H2 h hst hWf hd
  have hW2 := steps_wf s H s2 H2 hst hWf
  obtain ⟨hsnap, _⟩ := list_eq s2 H2 hW2
  exact ⟨hd2.2.1, by rw [hsnap]; exact hd2.2.1⟩

/-! ### The storage lock: acquisition outcomes per operation -/

/-- Condition of the storage `Mutex<Stash<T>>` at the moment an operation
tries to take it. -/
inductive LockState
  | free
  | heldByOther
  | poisoned
deriving Repr, DecidableEq

/-- `Inventory::track`, lib.rs 266-270:
`self.inner.items.lock().expect("Inventory lock poisoned on write")`.
`Except.error` models the `expect` panic propagated to the caller; a lock
merely held by another thread blocks and then proceeds (`Except.ok`). -/
def trackAcquire : LockState → Except String Unit
  | .poisoned => .error "Inventory lock poisoned on write"
  | _ => .ok ()

/-- `Inventory::list`, lib.rs 242:
`self.inner.items.lock().expect("Lock poisoned")`. -/
def listAcquire : LockState → Except String Unit
  | .poisoned => .error "Lock poisoned"
  | _ => .ok ()

/-- The changes iteration, lib.rs 109 and 115:
`inventory.inner.items.lock().unwrap()` and
`condvar.wait_timeout(guard, ..).unwrap()`; `unwrap` on a poisoned lock is a
panic propagated to the caller of `next()`. -/
def changesAcquire : LockState → Except String Unit
  | .poisoned => .error "unwrap on poisoned lock"
  | _ => .ok ()

/-- `Inventory::try_purge`, lib.rs 172-186, the removal path entered from
`Drop for TrackedObject`: `self.inner.items.try_lock()` followed by
`if let Ok(mut wlock) = try_wlock { .. }` with no `else`.  The `Err` branch —
`WouldBlock` for a held lock and `Poisoned` alike — is silently discarded.
The returned `Bool` tells whether the purge body ran; no outcome is an
error. -/
def tryPurgeAttempt : LockState → Except String Bool
  | .free => .ok true
  | .heldByOther => .ok false
  | .poisoned => .ok false

/-! ### The claims -/

/-- C1.  Snapshot life-extension: register one value `v` (handle `h`), take a
snapshot via `list()`, then drop `h`: `list()` still reports exactly 1 live
entry; after additionally dropping the snapshot, `list()` reports 0 — the
retained snapshot is the sole thing keeping the slot alive. -/
theorem claim_snapshot_life_extension (T : Type) (v : T) :
    (Census.list (dropTracked (Census.list (track (inventoryNew (T := T)) v).1).1
        (track (inventoryNew (T := T)) v).2)).2.length = 1 ∧
    (Census.list (dropAll
        (dropTracked (Census.list (track (inventoryNew (T := T)) v).1).1
          (track (inventoryNew (T := T)) v).2)
        (Census.list (track (inventoryNew (T := T)) v).1).2)).2.length = 0 := by
  have h1 : track (inventoryNew (T := T)) v =
      (⟨[⟨v, 1, 0⟩], [0], [], 1⟩, 0) := by
    simp [track, inventoryNew, purge, drainQueue, make_tracked_object,
      updInner, countOf]
  have h2 : Census.list (⟨[⟨v, 1, 0⟩], [0], [], 1⟩ : Stash T) =
      (⟨[⟨v, 2, 0⟩], [0], [], 1⟩, [0]) := by
    simp [Census.list, items_copy, purge, drainQueue, listLoop,
      make_tracked_object, updInner, countOf]
  have h3 : dropTracked (⟨[⟨v, 2, 0⟩], [0], [], 1⟩ : Stash T) 0 =
      ⟨[⟨v, 1, 0⟩], [0], [], 1⟩ := by
    simp [dropTracked, countOf, updInner, purge]
  have h4 : dropTracked (⟨[⟨v, 1, 0⟩], [0], [], 1⟩ : Stash T) 0 =
      ⟨[⟨v, 0, 0⟩], [], [], 2⟩ := by
    simp [dropTracked, countOf, updInner, purge, drainQueue,
      remove_with_lock, idxOf]
  have h5 : Census.list (⟨[⟨v, 0, 0⟩], [], [], 2⟩ : Stash T) =
      (⟨[⟨v, 0, 0⟩], [], [], 2⟩, []) := by
    simp [Census.list, items_copy, purge, drainQueue, listLoop]
  constructor
  · simp only [h1, h2, h3]
    rfl
  · simp only [h1, h2, h3, dropAll, h4, h5]
    rfl

theorem claim_snapshot_life_extension_witness :
    (Census.list (dropTracked (Census.list (track (inventoryNew (T := Nat)) 7).1).1
        (track (inventoryNew (T := Nat)) 7).2)).2.length = 1 :=
  (claim_snapshot_life_extension Nat 7).1

/-- C5.  Calling `list()` and immediately dropping the returned snapshot
restores the registry state exactly, so a subsequent `list()` returns the
same population as if the first `list()` had never been called. -/
theorem claim_list_drop_roundtrip (s : Stash T) (H : List Nat)
    (hWf : Wf s H) :
    dropAll (Census.list s).1 (Census.list s).2 = s ∧
    (Census.list (dropAll (Census.list s).1 (Census.list s).2)).2 =
      (Census.list s).2 := by
  have h1 := list_drop_restore s H hWf
  exact ⟨h1, by rw [h1]⟩

theorem claim_list_drop_roundtrip_witness :
    Wf (⟨[⟨7, 1, 0⟩], [0], [], 1⟩ : Stash Nat) [0] ∧
    dropAll (Census.list (⟨[⟨7, 1, 0⟩], [0], [], 1⟩ : Stash Nat)).1
        (Census.list (⟨[⟨7, 1, 0⟩], [0], [], 1⟩ : Stash Nat)).2 =
      (⟨[⟨7, 1, 0⟩], [0], [], 1⟩ : Stash Nat) :=
  ⟨by decide,
   (claim_list_drop_roundtrip (⟨[⟨7, 1, 0⟩], [0], [], 1⟩ : Stash Nat) [0]
     (by decide)).1⟩

/-- C10.  Cloning a live handle never panics: a handle held by the caller
keeps its slot's count at least 1, so the `unwrap` inside
`Clone for TrackedObject` (which refuses only a count-0 slot) always
receives `Some`. -/
theorem claim_clone_never_panics (s : Stash T) (H : List Nat) (h : Nat)
    (hWf : Wf s H) (hh : h ∈ H) :
    1 ≤ countOf s h ∧ (cloneTracked s h).2 = some h := by
  have hmem : h ∈ s.items := hWf.2.2.2.1 h hh
  have hc : 1 ≤ countOf s h := by
    rw [hWf.2.2.2.2.1 h hmem]
    exact hWf.2.2.2.2.2.1 h hmem
  refine ⟨hc, ?_⟩
  rw [clone_some s H h hWf hh]

theorem claim_clone_never_panics_witness :
    Wf (⟨[⟨7, 1, 0⟩], [0], [], 1⟩ : Stash Nat) [0] ∧
    (cloneTracked (⟨[⟨7, 1, 0⟩], [0], [], 1⟩ : Stash Nat) 0).2 = some 0 :=
  ⟨by decide,
   (claim_clone_never_panics (⟨[⟨7, 1, 0⟩], [0], [], 1⟩ : Stash Nat) [0] 0
     (by decide) (by decide)).2⟩

/-- C9 counterexample.  The claim says every operation that acquires the
storage lock — including the removal triggered by a handle's drop — surfaces
a poisoned lock to its caller.  But `try_purge`, the removal path, uses
`try_lock()` inside `if let Ok(..)` with no `else`: on a poisoned lock it
returns normally (`ok`), the error value is discarded and the purge body is
silently skipped. -/
theorem claim_poison_surfaced_counterexample :
    tryPurgeAttempt LockState.poisoned = Except.ok false ∧
    (tryPurgeAttempt LockState.poisoned).isOk = true := by
  exact ⟨rfl, rfl⟩

/-- C9 amended.  `track`, `list` and the changes iteration surface a poisoned
storage lock immediately as a panic; the removal path entered from a handle's
drop (`try_purge`) does not — it silently ignores the poisoned (or held) lock
and performs no purge. -/
theorem claim_poison_behavior_amended :
    (trackAcquire LockState.poisoned =
      Except.error "Inventory lock poisoned on write") ∧
    (listAcquire LockState.poisoned = Except.error "Lock poisoned") ∧
    (changesAcquire LockState.poisoned).isOk = false ∧
    tryPurgeAttempt LockState.poisoned = Except.ok false ∧
    tryPurgeAttempt LockState.heldByOther = Except.ok false ∧
    tryPurgeAttempt LockState.free = Except.ok true := by
  refine ⟨rfl, rfl, rfl, rfl, rfl, rfl⟩

/-- C3 counterexample.  The claim says the removal path re-checks the
reference count under the lock and removes the slot only if the count is
still 0.  The code's `purge`/`remove_with_lock` contain no such re-check: in
a state whose release queue holds a slot with reference count 1 (reachable
when a concurrent `list()` bumped the count of an enqueued slot via
`make_tracked_object`'s unconditional `fetch_add` before the purge drained
the queue), the purge still removes the slot. -/
theorem claim_remove_recheck_counterexample :
    countOf (⟨[⟨(5 : Nat), 1, 0⟩], [0], [0], 0⟩ : Stash Nat) 0 = 1 ∧
    (purge (⟨[⟨(5 : Nat), 1, 0⟩], [0], [0], 0⟩ : Stash Nat)).items = [] := by
  exact ⟨rfl, rfl⟩

/-- C3 amended.  The removal path removes every slot drained from the release
queue unconditionally — no count re-check exists; what prevents resurrection
is `make_tracked_object` refusing (returning `None`) to wrap any slot whose
count was 0, so no new handle to a dying slot is ever produced. -/
theorem claim_remove_unconditional_amended (s : Stash T) (el : Nat)
    (A : List Nat) (hq : s.queue = [el]) (hitems : s.items = A ++ [el])
    (hidx : idxOf s el = A.length) :
    (purge s).items = A ∧
    (∀ (s3 : Stash T) (j : Nat), countOf s3 j = 0 →
      (make_tracked_object s3 j false).2 = none) := by
  constructor
  · have hrm := remove_with_lock_last ({ s with queue := [] } : Stash T) el A
      hitems hidx
    unfold purge
    rw [hq]
    simp only [List.isEmpty_cons, if_false]
    show (drainQueue (remove_with_lock { s with queue := [] } el) []).items = A
    rw [hrm]
    rfl
  · intro s3 j hc
    exact make_tracked_object_dead s3 j hc

theorem claim_remove_unconditional_amended_witness :
    (purge (⟨[⟨(5 : Nat), 1, 0⟩], [0], [0], 0⟩ : Stash Nat)).items = [] :=
  (claim_remove_unconditional_amended
    (⟨[⟨(5 : Nat), 1, 0⟩], [0], [0], 0⟩ : Stash Nat) 0 []
    rfl rfl rfl).1

/-- C2.  The reference-count invariant is preserved by every operation.  In a
well-formed configuration — where each slot's count equals the number of
outstanding handles wrapping it, snapshot elements included — `track`,
`clone`, `drop`, `list` and `map` each yield a well-formed configuration
again, with the handle multiset updated accordingly (clone additionally
always succeeds). -/
theorem claim_refcount_invariant_preserved (s : Stash T) (H : List Nat)
    (hWf : Wf s H) :
    (∀ v : T, Wf (track s v).1 ((track s v).2 :: H)) ∧
    (∀ h ∈ H, (cloneTracked s h).2 = some h ∧
      Wf (cloneTracked s h).1 (h :: H)) ∧
    (∀ h ∈ H, Wf (dropTracked s h) (H.erase h)) ∧
    Wf (Census.list s).1 ((Census.list s).2 ++ H) ∧
    (∀ h ∈ H, ∀ f : T → T,
      Wf (mapTracked s h f).1 ((mapTracked s h f).2 :: H)) := by
  refine ⟨?_, ?_, ?_, ?_, ?_⟩
  · intro v
    exact track_wf s H v hWf
  · intro h hh
    refine ⟨?_, clone_wf s H h hWf hh⟩
    rw [clone_some s H h hWf hh]
  · intro h hh
    exact (drop_wf s H h hWf hh).1
  · exact list_wf s H hWf
  · intro h hh f
    obtain ⟨v, hval, hmape⟩ := map_eq s H h f hWf hh
    rw [hmape]
    exact track_wf s H (f v) hWf

theorem claim_refcount_invariant_preserved_witness :
    Wf (⟨[⟨7, 1, 0⟩], [0], [], 1⟩ : Stash Nat) [0] ∧
    Wf (Census.list (⟨[⟨7, 1, 0⟩], [0], [], 1⟩ : Stash Nat)).1
      ((Census.list (⟨[⟨7, 1, 0⟩], [0], [], 1⟩ : Stash Nat)).2 ++ [0]) :=
  ⟨by decide,
   (claim_refcount_invariant_preserved (⟨[⟨7, 1, 0⟩], [0], [], 1⟩ : Stash Nat)
     [0] (by decide)).2.2.2.1⟩

/-- C4.  Removal compacts by swap-to-end-and-truncate: removing the slot `el`
sitting at position `p = |A|` of a positionally coherent, duplicate-free items
vector pops it when `p` is last, and otherwise swaps the last slot `L` into
position `p`, truncates, and stores `p` into `L`'s index — and in either case
every remaining slot's stored index again equals its actual position. -/
theorem claim_swap_remove_compaction (s : Stash T) (el : Nat)
    (A B : List Nat) (hitems : s.items = A ++ el :: B)
    (hidx : idxOf s el = A.length) (hnd : s.items.Nodup)
    (hvalid : ∀ i ∈ s.items, i < s.heap.length)
    (hok : idxOkFrom s s.items 0 = true) :
    (B = [] → remove_with_lock s el = { s with items := A }) ∧
    (∀ B0 L, B = B0 ++ [L] →
      (remove_with_lock s el).items = A ++ L :: B0 ∧
      idxOf (remove_with_lock s el) L = A.length) ∧
    idxOkFrom (remove_with_lock s el) (remove_with_lock s el).items 0 =
      true := by
  have hok2 : idxOkFrom s (A ++ el :: B) 0 = true := by
    rw [← hitems]; exact hok
  obtain ⟨hidxh, hokA, hokB⟩ := idxOk_extract s A B el hok2
  have hnd2 : (A ++ el :: B).Nodup := by rw [← hitems]; exact hnd
  have hswap : ∀ B0 L, B = B0 ++ [L] →
      (remove_with_lock s el).items = A ++ L :: B0 ∧
      idxOf (remove_with_lock s el) L = A.length ∧
      idxOkFrom (remove_with_lock s el)
        (remove_with_lock s el).items 0 = true := by
    intro B0 L hBL
    subst hBL
    obtain ⟨hndAL, helA, helB0, helL, hLA, hLB0⟩ :=
      nodup_decomp A B0 el L hnd2
    have hLmem : L ∈ s.items := by
      rw [hitems]; simp
    have hLlt : L < s.heap.length := hvalid L hLmem
    obtain ⟨innL, hgL⟩ : ∃ innL, s.heap.get? L = some innL :=
      ⟨s.heap.get ⟨L, hLlt⟩, List.get?_eq_get hLlt⟩
    have hRL : remove_with_lock s el =
        updInner { s with items := A ++ L :: B0 } L
          (fun inn => { inn with idx := A.length }) :=
      remove_with_lock_swap s el L A B0 hitems hidx
    set F := updInner { s with items := A ++ L :: B0 } L
      (fun inn => { inn with idx := A.length }) with hF
    have hFitems : F.items = A ++ L :: B0 := by rw [hF, updInner_items]
    have hFgL : F.heap.get? L = some { innL with idx := A.length } :=
      updInner_get?_self _ L _ innL hgL
    have hFgne : ∀ j, j ≠ L → F.heap.get? j = s.heap.get? j := by
      intro j hjL
      exact updInner_get?_ne _ L j _ (fun he => hjL he.symm)
    have hFidxL : idxOf F L = A.length := by
      rw [idxOf_eq_of_get? F L _ hFgL]
    refine ⟨by rw [hRL]; exact hFitems, by rw [hRL]; exact hFidxL, ?_⟩
    rw [hRL, hFitems, idxOkFrom_append]
    have hA2 : idxOkFrom F A 0 = true := by
      rw [idxOkFrom_congr F s A 0 (fun i hi => idxOf_congr_get? F s i
        (hFgne i (fun he => hLA (he ▸ hi))))]
      exact hokA
    have hokB0 : idxOkFrom s B0 (A.length + 1) = true := by
      rw [idxOkFrom_append] at hokB
      exact ((Bool.and_eq_true _ _).mp hokB).1
    have hcons : idxOkFrom F (L :: B0) (0 + A.length) = true := by
      simp only [idxOkFrom, Bool.and_eq_true, beq_iff_eq]
      constructor
      · rw [hFidxL]
        simp
      · rw [idxOkFrom_congr F s B0 (0 + A.length + 1)
          (fun i hi => idxOf_congr_get? F s i
            (hFgne i (fun he => hLB0 (he ▸ hi))))]
        simpa using hokB0
    rw [hA2, hcons]
    rfl
  refine ⟨?_, fun B0 L hBL => ⟨(hswap B0 L hBL).1, (hswap B0 L hBL).2.1⟩, ?_⟩
  · intro hBnil
    subst hBnil
    exact remove_with_lock_last s el A hitems hidx
  · rcases List.eq_nil_or_concat B with hBnil | ⟨B0, L, hBL⟩
    · subst hBnil
      have hRL := remove_with_lock_last s el A hitems hidx
      rw [hRL]
      show idxOkFrom { s with items := A } A 0 = true
      rw [idxOkFrom_congr_heap ({ s with items := A } : Stash T) s rfl A 0]
      exact hokA
    · rw [List.concat_eq_append] at hBL
      exact (hswap B0 L hBL).2.2

theorem claim_swap_remove_compaction_witness :
    (remove_with_lock (⟨[⟨7, 1, 0⟩, ⟨8, 1, 1⟩], [0, 1], [], 0⟩ : Stash Nat)
      0).items = [1] :=
  ((claim_swap_remove_compaction
      (⟨[⟨7, 1, 0⟩, ⟨8, 1, 1⟩], [0, 1], [], 0⟩ : Stash Nat) 0 [] [1]
      rfl rfl (by decide) (by decide) (by decide)).2.1 [] 1 rfl).1

/-- C7.  A slot whose reference count has reached 0 is physically erased
already by the completion of the very drop that took it to 0 (hence no later
than the next `track` or `list`); thereafter, along any sequence of
operations the callers can perform, it never re-enters the items vector and
never appears in any snapshot; and even a slot still physically present with
count 0 is skipped by snapshot materialization (`make_tracked_object`
returns `None` for it). -/
theorem claim_dead_slot_never_reappears (s : Stash T) (H : List Nat)
    (h : Nat) (hWf : Wf s H) :
    (H.count h = 1 → h ∉ (dropTracked s h).items) ∧
    (∀ (s2 : Stash T) (H2 : List Nat), DeadSlot s H h → Steps s H s2 H2 →
      h ∉ s2.items ∧ h ∉ (Census.list s2).2) ∧
    (∀ (s3 : Stash T) (el : Nat), countOf s3 el = 0 →
      (make_tracked_object s3 el false).2 = none) := by
  refine ⟨?_, ?_, ?_⟩
  · intro hocc
    have hh : h ∈ H := List.count_pos_iff.mp (by omega)
    exact (drop_wf s H h hWf hh).2.2.2 hocc
  · intro s2 H2 hd hst
    exact steps_snapshot_free s H s2 H2 h hst hWf hd
  · intro s3 el hc
    exact make_tracked_object_dead s3 el hc

theorem claim_dead_slot_never_reappears_witness :
    Wf (⟨[⟨7, 1, 0⟩], [0], [], 1⟩ : Stash Nat) [0] ∧
    0 ∉ (dropTracked (⟨[⟨7, 1, 0⟩], [0], [], 1⟩ : Stash Nat) 0).items :=
  ⟨by decide,
   (claim_dead_slot_never_reappears (⟨[⟨7, 1, 0⟩], [0], [], 1⟩ : Stash Nat)
     [0] 0 (by decide)).1 (by decide)⟩

/-- C8.  `track v` never fails: it returns the fresh slot's handle, appends
the slot to the end of storage, the new slot's count is 1, its stored index
is the number of slots in storage at creation time, its value is `v`, the
threads blocked waiting for population changes are notified
(`notify_all`), and the internal `unwrap` cannot fail because
`make_tracked_object` with `force = true` always returns `Some`. -/
theorem claim_track_spec (s : Stash T) (H : List Nat) (v : T)
    (hWf : Wf s H) :
    (track s v).2 = s.heap.length ∧
    (track s v).1.items = s.items ++ [(track s v).2] ∧
    countOf (track s v).1 (track s v).2 = 1 ∧
    idxOf (track s v).1 (track s v).2 = s.items.length ∧
    valOf (track s v).1 (track s v).2 = some v ∧
    (track s v).1.notif = s.notif + 1 ∧
    (∀ (s2 : Stash T) (el : Nat),
      (make_tracked_object s2 el true).2 = some el) := by
  have hq : s.queue = [] := hWf.1
  have h3 : countOf (⟨s.heap ++ [⟨v, 1, s.items.length⟩],
      s.items ++ [s.heap.length], [], s.notif + 1⟩ : Stash T)
      s.heap.length = 1 :=
    countOf_eq_of_get? _ _ _ (get?_append_length s.heap _)
  have h4 : idxOf (⟨s.heap ++ [⟨v, 1, s.items.length⟩],
      s.items ++ [s.heap.length], [], s.notif + 1⟩ : Stash T)
      s.heap.length = s.items.length :=
    idxOf_eq_of_get? _ _ _ (get?_append_length s.heap _)
  have h5 : valOf (⟨s.heap ++ [⟨v, 1, s.items.length⟩],
      s.items ++ [s.heap.length], [], s.notif + 1⟩ : Stash T)
      s.heap.length = some v := by
    unfold valOf
    show ((s.heap ++ [(⟨v, 1, s.items.length⟩ : Inner T)]).get?
      s.heap.length).map Inner.val = some v
    rw [get?_append_length]
    rfl
  rw [track_eq s v hq]
  exact ⟨rfl, rfl, h3, h4, h5, rfl,
    fun s2 el => by rw [make_tracked_object_force]⟩

theorem claim_track_spec_witness :
    Wf (⟨[⟨7, 1, 0⟩], [0], [], 1⟩ : Stash Nat) [0] ∧
    (track (⟨[⟨7, 1, 0⟩], [0], [], 1⟩ : Stash Nat) 5).2 = 1 :=
  ⟨by decide,
   (claim_track_spec (⟨[⟨7, 1, 0⟩], [0], [], 1⟩ : Stash Nat) [0] 5
     (by decide)).1⟩

/-- C6.  `map` registers a brand-new, independently tracked slot.  Generally:
`h.map(f)` on a handle wrapping `v` returns a handle to a fresh slot (never
before in the items vector) holding `f v` with its own count 1, appended to
storage, while the original slot keeps its value, count and registration.
Concretely: registering `7` and mapping with doubling yields a registry of
exactly the two values `7` and `14`, each removable independently of the
other. -/
theorem claim_map_new_entry :
    (∀ (T : Type) (s : Stash T) (H : List Nat) (h : Nat) (f : T → T),
      Wf s H → h ∈ H →
      ∃ v, valOf s h = some v ∧
        (mapTracked s h f).2 = s.heap.length ∧
        (mapTracked s h f).2 ∉ s.items ∧
        (mapTracked s h f).1.items = s.items ++ [(mapTracked s h f).2] ∧
        countOf (mapTracked s h f).1 (mapTracked s h f).2 = 1 ∧
        valOf (mapTracked s h f).1 (mapTracked s h f).2 = some (f v) ∧
        valOf (mapTracked s h f).1 h = some v ∧
        countOf (mapTracked s h f).1 h = countOf s h) ∧
    ((Census.list (mapTracked (track (inventoryNew (T := Nat)) 7).1
        (track (inventoryNew (T := Nat)) 7).2 (fun i => i * 2)).1).2.map
      (valOf (Census.list (mapTracked (track (inventoryNew (T := Nat)) 7).1
        (track (inventoryNew (T := Nat)) 7).2 (fun i => i * 2)).1).1) =
      [some 7, some 14] ∧
    (Census.list (dropTracked
        (mapTracked (track (inventoryNew (T := Nat)) 7).1
          (track (inventoryNew (T := Nat)) 7).2 (fun i => i * 2)).1
        (track (inventoryNew (T := Nat)) 7).2)).2.map
      (valOf (Census.list (dropTracked
        (mapTracked (track (inventoryNew (T := Nat)) 7).1
          (track (inventoryNew (T := Nat)) 7).2 (fun i => i * 2)).1
        (track (inventoryNew (T := Nat)) 7).2)).1) = [some 14] ∧
    (Census.list (dropTracked
        (mapTracked (track (inventoryNew (T := Nat)) 7).1
          (track (inventoryNew (T := Nat)) 7).2 (fun i => i * 2)).1
        (mapTracked (track (inventoryNew (T := Nat)) 7).1
          (track (inventoryNew (T := Nat)) 7).2 (fun i => i * 2)).2)).2.map
      (valOf (Census.list (dropTracked
        (mapTracked (track (inventoryNew (T := Nat)) 7).1
          (track (inventoryNew (T := Nat)) 7).2 (fun i => i * 2)).1
        (mapTracked (track (inventoryNew (T := Nat)) 7).1
          (track (inventoryNew (T := Nat)) 7).2 (fun i => i * 2)).2)).1) =
      [some 7] ∧
    (Census.list (dropTracked (dropTracked
        (mapTracked (track (inventoryNew (T := Nat)) 7).1
          (track (inventoryNew (T := Nat)) 7).2 (fun i => i * 2)).1
        (track (inventoryNew (T := Nat)) 7).2)
        (mapTracked (track (inventoryNew (T := Nat)) 7).1
          (track (inventoryNew (T := Nat)) 7).2 (fun i => i * 2)).2)).2 =
      []) := by
  constructor
  · intro T s H h f hWf hh
    have hq : s.queue = [] := hWf.1
    have hvalid := hWf.2.2.1
    have hmem : h ∈ s.items := hWf.2.2.2.1 h hh
    have hlt : h < s.heap.length := hvalid h hmem
    obtain ⟨v, hval, hmape⟩ := map_eq s H h f hWf hh
    have htr := track_eq s (f v) hq
    have h2 : countOf (⟨s.heap ++ [⟨f v, 1, s.items.length⟩],
        s.items ++ [s.heap.length], [], s.notif + 1⟩ : Stash T)
        s.heap.length = 1 :=
      countOf_eq_of_get? _ _ _ (get?_append_length s.heap _)
    have h6 : valOf (⟨s.heap ++ [⟨f v, 1, s.items.length⟩],
        s.items ++ [s.heap.length], [], s.notif + 1⟩ : Stash T)
        s.heap.length = some (f v) := by
      unfold valOf
      show ((s.heap ++ [(⟨f v, 1, s.items.length⟩ : Inner T)]).get?
        s.heap.length).map Inner.val = some (f v)
      rw [get?_append_length]
      rfl
    have h7 : valOf (⟨s.heap ++ [⟨f v, 1, s.items.length⟩],
        s.items ++ [s.heap.length], [], s.notif + 1⟩ : Stash T) h =
        valOf s h := by
      unfold valOf
      show ((s.heap ++ [(⟨f v, 1, s.items.length⟩ : Inner T)]).get? h).map
        Inner.val = (s.heap.get? h).map Inner.val
      rw [get?_append_lt _ _ h hlt]
    have h8 : countOf (⟨s.heap ++ [⟨f v, 1, s.items.length⟩],
        s.items ++ [s.heap.length], [], s.notif + 1⟩ : Stash T) h =
        countOf s h :=
      countOf_congr_get? _ s h (get?_append_lt _ _ h hlt)
    refine ⟨v, hval, ?_⟩
    rw [hmape, htr]
    exact ⟨rfl, fun hc => by have := hvalid _ hc; omega,
      rfl, h2, h6, h7.trans hval, h8⟩
  · decide

theorem claim_map_new_entry_witness :
    Wf (⟨[⟨7, 1, 0⟩], [0], [], 1⟩ : Stash Nat) [0] ∧
    (mapTracked (⟨[⟨7, 1, 0⟩], [0], [], 1⟩ : Stash Nat) 0
      (fun i => i * 2)).2 = 1 := by
  refine ⟨by decide, ?_⟩
  obtain ⟨v, hval, h2, hrest⟩ := claim_map_new_entry.1 Nat
    (⟨[⟨7, 1, 0⟩], [0], [], 1⟩ : Stash Nat) [0] 0 (fun i => i * 2)
    (by decide) (by decide)
  exact h2

end Census
